import Mathlib

/-!
Verification of the PageRank program (pagerank.py).

The program is shallowly embedded over exact rationals (ℚ): Python floats
are modelled as exact rational arithmetic, and the convergence threshold
0.001 as 1/1000. A Python dict is modelled as an association list whose
keys are unique; a Python set of pages is modelled as a duplicate-free
list. The process-wide random source is modelled by oracle parameters:
the start page chosen by random.choice, and a function giving the outcome
of each weighted random.choices draw (which always returns a member of
the population list it is given). The unbounded `while True` loop of
iterate_pagerank is modelled with a fuel parameter returning `Option`:
`none` means the loop has not yet exited within `fuel` rounds, and
termination of the Python loop is the statement that some fuel suffices.
-/

/-- page identifier: a string naming a node of the graph. -/
abbrev Page := String

/-- A corpus: the Python dict mapping each page to its list of outgoing
links (a Python set, modelled as a duplicate-free list). -/
abbrev Corpus := List (Page × List Page)

/-- The keys of the corpus dict. -/
def keys (corpus : Corpus) : List Page := corpus.map Prod.fst

/-- transition_model(corpus, page, damping_factor) from pagerank.py.
`corpus[page]` is dict indexing; as in every call site of the program the
page is a key of the corpus, and the theorems below hypothesise that
(`List.lookup` returning `some`).  If the page has no outgoing links,
every key gets 1/N; otherwise every key gets (1-d)/N, and each key that
is among the page's links additionally gets d/num_links. -/
def transition_model (corpus : Corpus) (page : Page) (damping_factor : ℚ) :
    List (Page × ℚ) :=
  let links := (corpus.lookup page).getD []
  let N : ℚ := (corpus.length : ℚ)
  let num_links := links.length
  if num_links = 0 then
    corpus.map (fun e => (e.1, 1 / N))
  else
    corpus.map (fun e =>
      (e.1, (1 - damping_factor) / N +
        if e.1 ∈ links then damping_factor / (num_links : ℚ) else 0))

/-- The pure core of crawl(directory) from pagerank.py, taking as input
the raw extraction result: for each HTML filename, the list of raw href
candidates found by the regular expression.  The first pass stores
`set(links) - {filename}` (self-link removed); the second pass keeps only
links that are themselves keys of the dict. -/
def crawl (raw : List (Page × List Page)) : Corpus :=
  let pages := raw.map (fun e => (e.1, e.2.filter (fun l => l ≠ e.1)))
  pages.map (fun e => (e.1, e.2.filter (fun l => l ∈ pages.map Prod.fst)))

/-- Looking up a key in a list of pairs whose second component depends
only on the key recovers that function of the key. -/
theorem lookup_map_key (corpus : Corpus) (g : Page → ℚ) (q : Page)
    (hq : q ∈ keys corpus) :
    (corpus.map (fun e => (e.1, g e.1))).lookup q = some (g q) := by
  induction corpus with
  | nil => simp [keys] at hq
  | cons e t ih =>
    by_cases h : q = e.1
    · subst h
      simp [List.lookup]
    · have hq2 : q ∈ keys t := by
        simp [keys] at hq ⊢
        rcases hq with h1 | h1
        · exact absurd h1 h
        · exact h1
      have hbeq : (q == e.1) = false := by
        simp [h]
      simp [List.lookup, hbeq]
      exact ih hq2

/-- The keys of the returned distribution are exactly the keys of the
corpus, in both branches of transition_model. -/
theorem transition_model_keys (corpus : Corpus) (page : Page) (d : ℚ) :
    (transition_model corpus page d).map Prod.fst = keys corpus := by
  unfold transition_model keys
  by_cases h : ((corpus.lookup page).getD []).length = 0 <;>
    simp [h, List.map_map, Function.comp]

/-- C1: for a page p that is a key of the corpus with k > 0 outgoing
links all of which are keys, transition_model returns a mapping over
exactly the keys of the corpus, assigning (1-d)/N + d/k to each page in
corpus[p] and (1-d)/N to every other page. -/
theorem transition_model_linked (corpus : Corpus) (p : Page) (d : ℚ)
    (L : List Page) (hlook : corpus.lookup p = some L)
    (hk : 0 < L.length) (hsub : ∀ l ∈ L, l ∈ keys corpus) :
    (transition_model corpus p d).map Prod.fst = keys corpus ∧
    (∀ q ∈ L, (transition_model corpus p d).lookup q =
      some ((1 - d) / (corpus.length : ℚ) + d / (L.length : ℚ))) ∧
    (∀ q ∈ keys corpus, q ∉ L → (transition_model corpus p d).lookup q =
      some ((1 - d) / (corpus.length : ℚ))) := by
  refine ⟨transition_model_keys corpus p d, ?_, ?_⟩
  · intro q hq
    have hqk : q ∈ keys corpus := hsub q hq
    have : transition_model corpus p d = corpus.map (fun e =>
        (e.1, (1 - d) / (corpus.length : ℚ) +
          if e.1 ∈ L then d / (L.length : ℚ) else 0)) := by
      unfold transition_model
      rw [hlook]
      simp [Nat.pos_iff_ne_zero.mp hk]
    rw [this, lookup_map_key corpus
      (fun x => (1 - d) / (corpus.length : ℚ) +
        if x ∈ L then d / (L.length : ℚ) else 0) q hqk]
    simp [hq]
  · intro q hqk hq
    have : transition_model corpus p d = corpus.map (fun e =>
        (e.1, (1 - d) / (corpus.length : ℚ) +
          if e.1 ∈ L then d / (L.length : ℚ) else 0)) := by
      unfold transition_model
      rw [hlook]
      simp [Nat.pos_iff_ne_zero.mp hk]
    rw [this, lookup_map_key corpus
      (fun x => (1 - d) / (corpus.length : ℚ) +
        if x ∈ L then d / (L.length : ℚ) else 0) q hqk]
    simp [hq]

/-- The witness corpus used in claims C2, C4, C5, C6, C10: a 3-page
corpus where B is dangling, and a 3-cycle. -/
def exCorpus : Corpus := [("A", ["B", "C"]), ("B", []), ("C", ["A"])]

/-- A 3-cycle corpus A -> B -> C -> A. -/
def cycCorpus : Corpus := [("A", ["B"]), ("B", ["C"]), ("C", ["A"])]

/-- C2: for a dangling page (empty link set), transition_model maps every
key of the corpus to exactly 1/N; in particular on the corpus
A -> {B, C}, B -> {}, C -> {A} with damping 0.85, the distribution from B
is uniform: each of A, B, C gets 1/3. -/
theorem transition_model_dangling (corpus : Corpus) (p : Page) (d : ℚ)
    (hlook : corpus.lookup p = some []) :
    ((transition_model corpus p d).map Prod.fst = keys corpus ∧
     ∀ q ∈ keys corpus, (transition_model corpus p d).lookup q =
       some (1 / (corpus.length : ℚ))) ∧
    transition_model exCorpus "B" (85/100) =
      [("A", 1/3), ("B", 1/3), ("C", 1/3)] := by
  constructor
  · refine ⟨transition_model_keys corpus p d, ?_⟩
    intro q hq
    have : transition_model corpus p d =
        corpus.map (fun e => (e.1, 1 / (corpus.length : ℚ))) := by
      unfold transition_model
      rw [hlook]
      simp
    rw [this, lookup_map_key corpus (fun _ => 1 / (corpus.length : ℚ)) q hq]
  · simp [transition_model, exCorpus, List.lookup]

/-- Witness for C2: instantiate the dangling-page law at page B of the
example corpus and read off the uniform value at key A. -/
theorem transition_model_dangling_witness :
    (transition_model exCorpus "B" (85/100)).lookup "A" = some (1/3) := by
  have h := (transition_model_dangling exCorpus "B" (85/100) (by decide)).1.2
    "A" (by decide)
  rw [h]
  norm_num [exCorpus]

/-- Witness for C1: on the 3-cycle corpus from page A (one link, to B),
B gets (1-d)/3 + d and C gets (1-d)/3, with d = 0.85. -/
theorem transition_model_linked_witness :
    (transition_model cycCorpus "A" (85/100)).lookup "B" =
      some ((1 - 85/100) / 3 + (85/100) / 1) ∧
    (transition_model cycCorpus "A" (85/100)).lookup "C" =
      some ((1 - 85/100) / 3) := by
  have h := transition_model_linked cycCorpus "A" (85/100) ["B"]
    (by decide) (by decide) (by decide)
  constructor
  · have hb := h.2.1 "B" (by decide)
    rw [hb]
    norm_num [cycCorpus]
  · have hc := h.2.2 "C" (by decide) (by decide)
    rw [hc]
    norm_num [cycCorpus]

/-- C9: the corpus built by crawl satisfies both graph invariants: no
key links to itself, and every link target of any key is itself a key of
the corpus (candidate links to non-keys are dropped). -/
theorem crawl_invariants (raw : List (Page × List Page)) :
    ∀ e ∈ crawl raw, e.1 ∉ e.2 ∧ ∀ l ∈ e.2, l ∈ keys (crawl raw) := by
  intro e he
  unfold crawl at he
  rw [List.mem_map] at he
  obtain ⟨e1, he1, rfl⟩ := he
  constructor
  · intro hself
    rw [List.mem_filter] at hself
    have := hself.1
    rw [List.mem_map] at he1
    obtain ⟨e0, _, rfl⟩ := he1
    rw [List.mem_filter] at this
    simp at this
  · intro l hl
    rw [List.mem_filter] at hl
    have h2 := hl.2
    simp only [decide_eq_true_eq] at h2
    unfold keys crawl
    simp only [List.map_map, Function.comp] at h2 ⊢
    exact h2

/-- Witness for C9: a concrete raw extraction with a self link on A and
a link to a non-existent page D, both of which are dropped. -/
theorem crawl_invariants_witness :
    ("A", ["B"]) ∈ crawl [("A", ["A", "B", "D"]), ("B", ["A"])] ∧
    ("A", ["A", "B", "D"]) ∉ crawl [("A", ["A", "B", "D"]), ("B", ["A"])] ∧
    (∀ e ∈ crawl [("A", ["A", "B", "D"]), ("B", ["A"])],
      e.1 ∉ e.2 ∧ ∀ l ∈ e.2, l ∈ keys (crawl [("A", ["A", "B", "D"]), ("B", ["A"])])) := by
  refine ⟨by decide, by decide, crawl_invariants _⟩

/-- Sums of mapped lists distribute over pointwise addition. -/
theorem sum_map_add {α : Type*} (l : List α) (f g : α → ℚ) :
    (l.map fun x => f x + g x).sum = (l.map f).sum + (l.map g).sum := by
  induction l with
  | nil => simp
  | cons h t ih => simp [ih]; ring

/-- Sums of mapped lists distribute over pointwise subtraction. -/
theorem sum_map_sub {α : Type*} (l : List α) (f g : α → ℚ) :
    (l.map fun x => f x - g x).sum = (l.map f).sum - (l.map g).sum := by
  induction l with
  | nil => simp
  | cons h t ih => simp [ih]; ring

/-- A constant divisor moves out of a mapped sum. -/
theorem sum_map_div {α : Type*} (l : List α) (f : α → ℚ) (c : ℚ) :
    (l.map fun x => f x / c).sum = (l.map f).sum / c := by
  induction l with
  | nil => simp
  | cons h t ih => simp [ih]; ring

/-- Triangle inequality for mapped list sums. -/
theorem abs_sum_le {α : Type*} (l : List α) (f : α → ℚ) :
    |(l.map f).sum| ≤ (l.map fun x => |f x|).sum := by
  induction l with
  | nil => simp
  | cons h t ih =>
    simp only [List.map_cons, List.sum_cons]
    exact le_trans (abs_add _ _) (by linarith)

/-- Exchanging the order of a double mapped sum. -/
theorem sum_map_swap {α β : Type*} (l1 : List α) (l2 : List β) (f : α → β → ℚ) :
    (l1.map fun x => (l2.map fun y => f x y).sum).sum =
      (l2.map fun y => (l1.map fun x => f x y).sum).sum := by
  induction l1 with
  | nil => simp
  | cons h t ih =>
    simp only [List.map_cons, List.sum_cons, ih]
    rw [← sum_map_add]

/-- Incrementing a counter at one key of a duplicate-free list increases
the total count by exactly one. -/
theorem sum_map_bump (l : List Page) (f : Page → ℕ) (q : Page)
    (hnd : l.Nodup) (hq : q ∈ l) :
    (l.map fun p => if p = q then f p + 1 else f p).sum = (l.map f).sum + 1 := by
  induction l with
  | nil => simp at hq
  | cons h t ih =>
    rw [List.nodup_cons] at hnd
    rcases List.mem_cons.mp hq with rfl | hqt
    · have hcongr : t.map (fun p => if p = q then f p + 1 else f p) = t.map f := by
        apply List.map_congr_left
        intro a ha
        have : a ≠ q := fun heq => hnd.1 (heq ▸ ha)
        simp [this]
      simp only [List.map_cons, List.sum_cons, hcongr]
      rw [if_pos True.intro]
      omega
    · have hne : h ≠ q := fun heq => hnd.1 (heq ▸ hqt)
      simp only [List.map_cons, List.sum_cons, if_neg hne, ih hnd.2 hqt]
      omega

/-- Casting a sum of naturals over a mapped list into ℚ. -/
theorem sum_map_cast {α : Type*} (l : List α) (f : α → ℕ) :
    (l.map fun p => ((f p : ℕ) : ℚ)).sum = (((l.map f).sum : ℕ) : ℚ) := by
  induction l with
  | nil => simp
  | cons h t ih => simp [ih]

/-- One step of the random walk of sample_pagerank: state after the
initial uniform choice of `start` (counted once) and `m` weighted draws.
The fst component is the visit_counts dict, the snd the current page.
Draw `i` (for `i = 1, ..`) is taken by the oracle `picks` from the
distribution `transition_model corpus current damping_factor`, modelling
random.choices over its keys weighted by its values. -/
def sampleStep (corpus : Corpus) (damping_factor : ℚ) (start : Page)
    (picks : ℕ → List (Page × ℚ) → Page) : ℕ → (Page → ℕ) × Page
  | 0 => (fun p => if p = start then 1 else 0, start)
  | m + 1 =>
    let prev := sampleStep corpus damping_factor start picks m
    let next := picks (m + 1) (transition_model corpus prev.2 damping_factor)
    (fun p => if p = next then prev.1 p + 1 else prev.1 p, next)

/-- sample_pagerank(corpus, damping_factor, n) from pagerank.py, with the
random source made explicit: `start` is the page returned by
random.choice over the corpus keys, and `picks` gives the outcome of the
weighted draw of each loop iteration.  `none` models the two uncaught
Python exceptions: choosing a start page from an empty corpus
(IndexError) and, for a nonempty corpus, dividing the visit counts by
n = 0 after the loop (ZeroDivisionError).  The Python loop
`for i in range(1, n)` performs max(n-1, 0) draws. -/
def sample_pagerank (corpus : Corpus) (damping_factor : ℚ) (n : ℤ)
    (start : Page) (picks : ℕ → List (Page × ℚ) → Page) :
    Option (List (Page × ℚ)) :=
  if corpus.isEmpty then none
  else if n = 0 then none
  else
    let counts := (sampleStep corpus damping_factor start picks (n - 1).toNat).1
    some (corpus.map fun e => (e.1, (counts e.1 : ℚ) / (n : ℚ)))

/-- The current page of the random walk is always a key of the corpus,
provided the start page is and the oracle always picks a key of the
distribution it is handed. -/
theorem sampleStep_current_mem (corpus : Corpus) (d : ℚ) (start : Page)
    (picks : ℕ → List (Page × ℚ) → Page) (hstart : start ∈ keys corpus)
    (hpicks : ∀ i q, q ∈ keys corpus →
      picks i (transition_model corpus q d) ∈ keys corpus) :
    ∀ m, (sampleStep corpus d start picks m).2 ∈ keys corpus := by
  intro m
  induction m with
  | zero => exact hstart
  | succ m ih => exact hpicks (m + 1) _ ih

/-- After `m` draws the visit counts over the corpus keys sum to m + 1:
the start page and each drawn page are counted exactly once. -/
theorem sampleStep_counts_sum (corpus : Corpus) (d : ℚ) (start : Page)
    (picks : ℕ → List (Page × ℚ) → Page) (hnd : (keys corpus).Nodup)
    (hstart : start ∈ keys corpus)
    (hpicks : ∀ i q, q ∈ keys corpus →
      picks i (transition_model corpus q d) ∈ keys corpus) :
    ∀ m, ((keys corpus).map (sampleStep corpus d start picks m).1).sum = m + 1 := by
  intro m
  induction m with
  | zero =>
    have : ((keys corpus).map fun p => if p = start then 1 else 0).sum =
        ((keys corpus).map (fun _ => 0)).sum + 1 := by
      have h := sum_map_bump (keys corpus) (fun _ => 0) start hnd hstart
      simpa using h
    simpa [sampleStep] using this
  | succ m ih =>
    have hnext : (sampleStep corpus d start picks m).2 ∈ keys corpus :=
      sampleStep_current_mem corpus d start picks hstart hpicks m
    have hmem : picks (m + 1)
        (transition_model corpus (sampleStep corpus d start picks m).2 d) ∈
        keys corpus := hpicks (m + 1) _ hnext
    have h := sum_map_bump (keys corpus) (sampleStep corpus d start picks m).1
      (picks (m + 1) (transition_model corpus (sampleStep corpus d start picks m).2 d))
      hnd hmem
    simp only [sampleStep]
    rw [h, ih]

/-- Each individual visit count is at most the total count. -/
theorem sampleStep_count_le (corpus : Corpus) (d : ℚ) (start : Page)
    (picks : ℕ → List (Page × ℚ) → Page) (m : ℕ) (p : Page)
    (hp : p ∈ keys corpus) :
    (sampleStep corpus d start picks m).1 p ≤
      ((keys corpus).map (sampleStep corpus d start picks m).1).sum := by
  exact List.single_le_sum (fun x _ => Nat.zero_le x) _
    (List.mem_map.mpr ⟨p, hp, rfl⟩)

/-- C3: for a corpus with duplicate-free keys, any start page among the
keys, any draw oracle that picks keys of the handed distribution, and
any budget n >= 1, sample_pagerank returns a table over exactly the
corpus keys whose values are visit_count/n for nonnegative integer
counts summing to n; every value lies in [0, 1] and the values sum to
exactly 1 in rational arithmetic. -/
theorem sample_pagerank_partition (corpus : Corpus) (d : ℚ) (n : ℤ)
    (start : Page) (picks : ℕ → List (Page × ℚ) → Page)
    (hnd : (keys corpus).Nodup) (hstart : start ∈ keys corpus)
    (hpicks : ∀ i q, q ∈ keys corpus →
      picks i (transition_model corpus q d) ∈ keys corpus)
    (hn : 1 ≤ n) :
    ∃ ranks, sample_pagerank corpus d n start picks = some ranks ∧
      ranks.map Prod.fst = keys corpus ∧
      (∀ e ∈ ranks, ∃ c : ℕ, (c : ℤ) ≤ n ∧ e.2 = (c : ℚ) / (n : ℚ) ∧
        0 ≤ e.2 ∧ e.2 ≤ 1) ∧
      ((corpus.map fun e =>
        ((sampleStep corpus d start picks (n - 1).toNat).1 e.1)).sum : ℤ) = n ∧
      (ranks.map Prod.snd).sum = 1 := by
  have hne : ¬ corpus.isEmpty := by
    cases corpus with
    | nil => simp [keys] at hstart
    | cons e t => simp
  have hn0 : n ≠ 0 := by omega
  set m := (n - 1).toNat with hm
  have hmn : (m : ℤ) + 1 = n := by omega
  set counts := (sampleStep corpus d start picks m).1 with hcounts
  have hsum : ((keys corpus).map counts).sum = m + 1 :=
    sampleStep_counts_sum corpus d start picks hnd hstart hpicks m
  have hsum2 : ((corpus.map fun e => counts e.1).sum : ℤ) = n := by
    have : corpus.map (fun e => counts e.1) = (keys corpus).map counts := by
      simp [keys, List.map_map, Function.comp]
    rw [this, hsum]
    push_cast
    omega
  have heq : sample_pagerank corpus d n start picks =
      some (corpus.map fun e => (e.1, (counts e.1 : ℚ) / (n : ℚ))) := by
    unfold sample_pagerank
    rw [if_neg hne, if_neg hn0]
  refine ⟨_, heq, ?_, ?_, hsum2, ?_⟩
  · simp [keys, List.map_map, Function.comp]
  · intro e he
    rw [List.mem_map] at he
    obtain ⟨e0, he0, rfl⟩ := he
    have hle : counts e0.1 ≤ ((keys corpus).map counts).sum :=
      sampleStep_count_le corpus d start picks m e0.1
        (List.mem_map.mpr ⟨e0, he0, rfl⟩)
    have hcn : (counts e0.1 : ℤ) ≤ n := by
      rw [hsum] at hle
      omega
    have hnpos : (0 : ℚ) < (n : ℚ) := by
      exact_mod_cast lt_of_lt_of_le zero_lt_one hn
    refine ⟨counts e0.1, hcn, rfl, ?_, ?_⟩
    · positivity
    · rw [div_le_one hnpos]
      exact_mod_cast hcn
  · have hmap : (corpus.map fun e => (e.1, (counts e.1 : ℚ) / (n : ℚ))).map Prod.snd =
        corpus.map fun e => (counts e.1 : ℚ) / (n : ℚ) := by
      simp [List.map_map, Function.comp]
    rw [hmap, sum_map_div]
    rw [sum_map_cast corpus (fun e => counts e.1)]
    have hsumn : (corpus.map fun e => counts e.1).sum = n.toNat := by omega
    have hq : (((corpus.map fun e => counts e.1).sum : ℕ) : ℚ) = (n : ℚ) := by
      rw [hsumn]
      exact_mod_cast Int.toNat_of_nonneg (by omega : (0 : ℤ) ≤ n)
    rw [hq]
    exact div_self (by exact_mod_cast hn0)

/-- Witness for C3: a 2-page corpus, start page A, an oracle that always
draws A, and a budget of 3 samples. -/
theorem sample_pagerank_partition_witness :
    ∃ ranks, sample_pagerank [("A", ["B"]), ("B", [])] (85/100) 3 "A"
        (fun _ _ => "A") = some ranks ∧
      ranks.map Prod.fst = keys [("A", ["B"]), ("B", [])] ∧
      (∀ e ∈ ranks, ∃ c : ℕ, (c : ℤ) ≤ (3 : ℤ) ∧
        e.2 = (c : ℚ) / (((3 : ℤ) : ℚ)) ∧ 0 ≤ e.2 ∧ e.2 ≤ 1) ∧
      (([("A", ["B"]), ("B", [])].map fun e =>
        ((sampleStep [("A", ["B"]), ("B", [])] (85/100) "A" (fun _ _ => "A")
          (((3 : ℤ) - 1).toNat)).1 e.1)).sum : ℤ) = 3 ∧
      (ranks.map Prod.snd).sum = 1 := by
  exact sample_pagerank_partition [("A", ["B"]), ("B", [])] (85/100) 3 "A"
    (fun _ _ => "A") (by decide) (by decide)
    (by
      intro i q h
      show "A" ∈ keys [("A", ["B"]), ("B", [])]
      decide) (by omega)

/-- One page's updated rank in iterate_pagerank: (1-d)/N plus d times
the sum, over every page q whose link set contains `page`, of
rank(q)/len(corpus[q]). -/
def new_rank (corpus : Corpus) (damping_factor : ℚ) (page_ranks : Page → ℚ)
    (page : Page) : ℚ :=
  (1 - damping_factor) / (corpus.length : ℚ) +
    damping_factor * (corpus.map (fun e =>
      if page ∈ e.2 then page_ranks e.1 / (e.2.length : ℚ) else 0)).sum

/-- One full round of iterate_pagerank: the new_page_ranks dict built
from the previous round's page_ranks (Jacobi update). -/
def rankStep (corpus : Corpus) (damping_factor : ℚ) (page_ranks : Page → ℚ) :
    Page → ℚ :=
  fun page => new_rank corpus damping_factor page_ranks page

/-- The cumulative change of one round: the `difference` variable of
iterate_pagerank after the for-loop, i.e. the sum over all pages of
|new_page_ranks[page] - page_ranks[page]|. -/
def roundDiff (corpus : Corpus) (damping_factor : ℚ) (page_ranks : Page → ℚ) : ℚ :=
  (corpus.map (fun e =>
    |new_rank corpus damping_factor page_ranks e.1 - page_ranks e.1|)).sum

/-- The `while True` loop of iterate_pagerank, with fuel.  When the
round's cumulative difference is not greater than 0.001 the loop breaks,
keeping the PREVIOUS page_ranks (the freshly computed new_page_ranks of
the breaking round is discarded); otherwise page_ranks becomes
new_page_ranks and the loop repeats. -/
def iterLoop (corpus : Corpus) (damping_factor : ℚ) :
    ℕ → (Page → ℚ) → Option (Page → ℚ)
  | 0, _ => none
  | fuel + 1, page_ranks =>
    if roundDiff corpus damping_factor page_ranks > 1/1000 then
      iterLoop corpus damping_factor fuel (rankStep corpus damping_factor page_ranks)
    else
      some page_ranks

/-- The initial rank table of iterate_pagerank: every page gets 1/N. -/
def init_ranks (corpus : Corpus) : Page → ℚ :=
  fun _ => 1 / (corpus.length : ℚ)

/-- The final normalization of iterate_pagerank: divide every rank by
the sum of all ranks. -/
def normalizeRanks (corpus : Corpus) (page_ranks : Page → ℚ) : List (Page × ℚ) :=
  corpus.map (fun e =>
    (e.1, page_ranks e.1 / (corpus.map (fun e2 => page_ranks e2.1)).sum))

/-- iterate_pagerank(corpus, damping_factor) from pagerank.py, with the
unbounded loop given `fuel` rounds: `none` means the loop has not exited
within fuel rounds. -/
def iterate_pagerank (corpus : Corpus) (damping_factor : ℚ) (fuel : ℕ) :
    Option (List (Page × ℚ)) :=
  (iterLoop corpus damping_factor fuel (init_ranks corpus)).map
    (normalizeRanks corpus)

/-- If the loop exits, it exits at the first round t whose cumulative
difference is at most 0.001, and returns the t-th iterate of the update
map (the update computed during the breaking round is discarded). -/
theorem iterLoop_characterize (corpus : Corpus) (d : ℚ) :
    ∀ (fuel : ℕ) (r out : Page → ℚ), iterLoop corpus d fuel r = some out →
      ∃ t, t < fuel ∧
        (∀ s, s < t → roundDiff corpus d ((rankStep corpus d)^[s] r) > 1/1000) ∧
        roundDiff corpus d ((rankStep corpus d)^[t] r) ≤ 1/1000 ∧
        out = (rankStep corpus d)^[t] r := by
  intro fuel
  induction fuel with
  | zero => intro r out h; simp [iterLoop] at h
  | succ fuel ih =>
    intro r out h
    rw [iterLoop] at h
    by_cases hgt : roundDiff corpus d r > 1/1000
    · rw [if_pos hgt] at h
      obtain ⟨t, htf, hbefore, hstop, hout⟩ := ih (rankStep corpus d r) out h
      refine ⟨t + 1, by omega, ?_, ?_, ?_⟩
      · intro s hs
        cases s with
        | zero => simpa using hgt
        | succ s =>
          rw [Function.iterate_succ_apply]
          exact hbefore s (by omega)
      · rw [Function.iterate_succ_apply]
        exact hstop
      · rw [Function.iterate_succ_apply]
        exact hout
    · rw [if_neg hgt] at h
      refine ⟨0, by omega, by omega, ?_, ?_⟩
      · simpa using not_lt.mp hgt
      · simpa using h.symm

/-- C4: if iterate_pagerank terminates, then one more update round
applied to the pre-normalization ranks it stopped on changes no page's
rank by more than 0.001 (since the cumulative change of the breaking
round is at most 0.001). -/
theorem iterate_pagerank_convergence_law (corpus : Corpus) (d : ℚ)
    (fuel : ℕ) (out : List (Page × ℚ)) (hN : 1 ≤ corpus.length)
    (hd0 : 0 < d) (hd1 : d < 1)
    (h : iterate_pagerank corpus d fuel = some out) :
    ∃ r, iterLoop corpus d fuel (init_ranks corpus) = some r ∧
      out = normalizeRanks corpus r ∧
      ∀ e ∈ corpus, |new_rank corpus d r e.1 - r e.1| ≤ 1/1000 := by
  unfold iterate_pagerank at h
  rw [Option.map_eq_some'] at h
  obtain ⟨r, hr, hout⟩ := h
  refine ⟨r, hr, hout.symm, ?_⟩
  obtain ⟨t, _, _, hstop, hrt⟩ :=
    iterLoop_characterize corpus d fuel (init_ranks corpus) r hr
  rw [← hrt] at hstop
  intro e he
  have hterm : |new_rank corpus d r e.1 - r e.1| ≤ roundDiff corpus d r := by
    apply List.single_le_sum
    · intro x hx
      obtain ⟨e2, _, rfl⟩ := List.mem_map.mp hx
      exact abs_nonneg _
    · exact List.mem_map.mpr ⟨e, he, rfl⟩
  exact le_trans hterm hstop

/-- Witness for C4: the 3-cycle with damping 0.85 converges in the very
first round (the uniform table is an exact fixed point). -/
theorem iterate_pagerank_convergence_law_witness :
    ∃ r, iterLoop cycCorpus (85/100) 1 (init_ranks cycCorpus) = some r ∧
      [("A", (1:ℚ)/3), ("B", 1/3), ("C", 1/3)] = normalizeRanks cycCorpus r ∧
      ∀ e ∈ cycCorpus, |new_rank cycCorpus (85/100) r e.1 - r e.1| ≤ 1/1000 := by
  apply iterate_pagerank_convergence_law cycCorpus (85/100) 1 _ (by decide)
    (by norm_num) (by norm_num)
  have h0 : roundDiff cycCorpus (85/100) (init_ranks cycCorpus) = 0 := by
    simp [roundDiff, new_rank, init_ranks, cycCorpus] <;> norm_num
  have h1 : iterLoop cycCorpus (85/100) 1 (init_ranks cycCorpus) =
      some (init_ranks cycCorpus) := by
    rw [show iterLoop cycCorpus (85/100) 1 (init_ranks cycCorpus) =
        if roundDiff cycCorpus (85/100) (init_ranks cycCorpus) > 1/1000 then
          iterLoop cycCorpus (85/100) 0
            (rankStep cycCorpus (85/100) (init_ranks cycCorpus))
        else some (init_ranks cycCorpus) from rfl, h0]
    norm_num
  unfold iterate_pagerank
  rw [h1]
  simp only [Option.map_some']
  norm_num [normalizeRanks, init_ranks, cycCorpus]

/-- C10: the table iterate_pagerank returns is the normalization of the
ranks as they stood BEFORE the breaking round's freshly computed update:
the returned ranks are the t-th iterate of the update map, where t is
the first round whose cumulative change is at most 0.001, and the
(t+1)-st iterate computed during that round is discarded. -/
theorem iterate_pagerank_discards_final_update (corpus : Corpus) (d : ℚ)
    (fuel : ℕ) (out : List (Page × ℚ))
    (h : iterate_pagerank corpus d fuel = some out) :
    ∃ t, t < fuel ∧
      (∀ s, s < t → roundDiff corpus d
        ((rankStep corpus d)^[s] (init_ranks corpus)) > 1/1000) ∧
      roundDiff corpus d ((rankStep corpus d)^[t] (init_ranks corpus)) ≤ 1/1000 ∧
      out = normalizeRanks corpus
        ((rankStep corpus d)^[t] (init_ranks corpus)) := by
  unfold iterate_pagerank at h
  rw [Option.map_eq_some'] at h
  obtain ⟨r, hr, hout⟩ := h
  obtain ⟨t, htf, hbefore, hstop, hrt⟩ :=
    iterLoop_characterize corpus d fuel (init_ranks corpus) r hr
  exact ⟨t, htf, hbefore, hstop, by rw [← hout, hrt]⟩

/-- Witness for C10: on the 3-cycle with fuel 2 the loop stops at t = 0
and returns the normalized initial table. -/
theorem iterate_pagerank_discards_final_update_witness :
    ∃ t, t < 2 ∧
      (∀ s, s < t → roundDiff cycCorpus (85/100)
        ((rankStep cycCorpus (85/100))^[s] (init_ranks cycCorpus)) > 1/1000) ∧
      roundDiff cycCorpus (85/100)
        ((rankStep cycCorpus (85/100))^[t] (init_ranks cycCorpus)) ≤ 1/1000 ∧
      [("A", (1:ℚ)/3), ("B", 1/3), ("C", 1/3)] = normalizeRanks cycCorpus
        ((rankStep cycCorpus (85/100))^[t] (init_ranks cycCorpus)) := by
  apply iterate_pagerank_discards_final_update cycCorpus (85/100) 2 _
  have h0 : roundDiff cycCorpus (85/100) (init_ranks cycCorpus) = 0 := by
    simp [roundDiff, new_rank, init_ranks, cycCorpus] <;> norm_num
  have h1 : iterLoop cycCorpus (85/100) 2 (init_ranks cycCorpus) =
      some (init_ranks cycCorpus) := by
    rw [show iterLoop cycCorpus (85/100) 2 (init_ranks cycCorpus) =
        if roundDiff cycCorpus (85/100) (init_ranks cycCorpus) > 1/1000 then
          iterLoop cycCorpus (85/100) 1
            (rankStep cycCorpus (85/100) (init_ranks cycCorpus))
        else some (init_ranks cycCorpus) from rfl, h0]
    norm_num
  unfold iterate_pagerank
  rw [h1]
  simp only [Option.map_some']
  norm_num [normalizeRanks, init_ranks, cycCorpus]

/-- The L1 distance of two rank tables over the corpus keys. -/
def l1dist (corpus : Corpus) (u v : Page → ℚ) : ℚ :=
  (corpus.map (fun e => |u e.1 - v e.1|)).sum

/-- The round difference is the L1 distance between the updated and the
current ranks. -/
theorem roundDiff_eq_l1dist (corpus : Corpus) (d : ℚ) (r : Page → ℚ) :
    roundDiff corpus d r = l1dist corpus (rankStep corpus d r) r := rfl

/-- Summing the indicator of membership in a duplicate-free sub-list s
of the duplicate-free key list gives |s| copies of the constant. -/
theorem count_mem_keys :
    ∀ (ks : List Page), ks.Nodup → ∀ (s : List Page) (c : ℚ), s.Nodup →
      (∀ x ∈ s, x ∈ ks) →
      (ks.map fun p => if p ∈ s then c else 0).sum = (s.length : ℚ) * c := by
  intro ks
  induction ks with
  | nil =>
    intro _ s c _ hsub
    cases s with
    | nil => simp
    | cons a t => exact absurd (hsub a (by simp)) (by simp)
  | cons h t ih =>
    intro hk s c hs hsub
    rw [List.nodup_cons] at hk
    by_cases hmem : h ∈ s
    · have hcong : (t.map fun p => if p ∈ s then c else 0) =
          t.map fun p => if p ∈ s.erase h then c else 0 := by
        apply List.map_congr_left
        intro a ha
        have hne : a ≠ h := fun heq => hk.1 (heq ▸ ha)
        by_cases has : a ∈ s
        · rw [if_pos has, if_pos ((List.mem_erase_of_ne hne).mpr has)]
        · rw [if_neg has, if_neg (fun hc => has (List.mem_of_mem_erase hc))]
      have hesub : ∀ x ∈ s.erase h, x ∈ t := by
        intro x hx
        have hxs : x ∈ s := List.mem_of_mem_erase hx
        have hxh : x ≠ h := (hs.mem_erase_iff.mp hx).1
        rcases List.mem_cons.mp (hsub x hxs) with h1 | h1
        · exact absurd h1 hxh
        · exact h1
      simp only [List.map_cons, List.sum_cons, if_pos hmem, hcong]
      rw [ih hk.2 (s.erase h) c (hs.erase h) hesub]
      have hlen : s.length = (s.erase h).length + 1 := by
        have := List.length_erase_of_mem hmem
        have hpos : 0 < s.length := List.length_pos_of_mem hmem
        omega
      rw [hlen]
      push_cast
      ring
    · have hsub2 : ∀ x ∈ s, x ∈ t := by
        intro x hx
        rcases List.mem_cons.mp (hsub x hx) with h1 | h1
        · exact absurd h1 (fun heq => hmem (h1 ▸ hx))
        · exact h1
      simp only [List.map_cons, List.sum_cons, if_neg hmem]
      rw [ih hk.2 s c hs hsub2]
      ring

/-- Contraction of the update map in L1 distance: one Jacobi round
shrinks the L1 distance of two rank tables by at least the factor d,
because the link matrix is substochastic on a graph whose link targets
are all keys. -/
theorem rankStep_contraction (corpus : Corpus) (d : ℚ) (u v : Page → ℚ)
    (hk : (keys corpus).Nodup)
    (hinv : ∀ e ∈ corpus, e.2.Nodup ∧ ∀ l ∈ e.2, l ∈ keys corpus)
    (hd0 : 0 ≤ d) :
    l1dist corpus (rankStep corpus d u) (rankStep corpus d v) ≤
      d * l1dist corpus u v := by
  have hpt : ∀ p, |rankStep corpus d u p - rankStep corpus d v p| ≤
      d * (corpus.map fun e =>
        if p ∈ e.2 then |u e.1 - v e.1| / (e.2.length : ℚ) else 0).sum := by
    intro p
    have hdiff : rankStep corpus d u p - rankStep corpus d v p =
        d * (corpus.map fun e =>
          if p ∈ e.2 then (u e.1 - v e.1) / (e.2.length : ℚ) else 0).sum := by
      unfold rankStep new_rank
      have h1 : (corpus.map fun e =>
          if p ∈ e.2 then (u e.1 - v e.1) / (e.2.length : ℚ) else 0).sum =
          (corpus.map fun e =>
            if p ∈ e.2 then u e.1 / (e.2.length : ℚ) else 0).sum -
          (corpus.map fun e =>
            if p ∈ e.2 then v e.1 / (e.2.length : ℚ) else 0).sum := by
        rw [← sum_map_sub]
        congr 1
        apply List.map_congr_left
        intro e _
        by_cases hmem : p ∈ e.2
        · simp only [if_pos hmem]
          rw [sub_div]
        · simp [hmem]
      rw [h1]
      ring
    rw [hdiff, abs_mul, abs_of_nonneg hd0]
    apply mul_le_mul_of_nonneg_left _ hd0
    refine le_trans (abs_sum_le _ _) (le_of_eq ?_)
    congr 1
    apply List.map_congr_left
    intro e _
    by_cases hmem : p ∈ e.2
    · simp only [if_pos hmem]
      rw [abs_div, abs_of_nonneg (by positivity : (0:ℚ) ≤ (e.2.length : ℚ))]
    · simp [hmem]
  have hsum1 : l1dist corpus (rankStep corpus d u) (rankStep corpus d v) ≤
      (corpus.map fun e1 => d * (corpus.map fun e =>
        if e1.1 ∈ e.2 then |u e.1 - v e.1| / (e.2.length : ℚ) else 0).sum).sum :=
    List.sum_le_sum (fun e1 _ => hpt e1.1)
  refine le_trans hsum1 ?_
  rw [List.sum_map_mul_left]
  apply mul_le_mul_of_nonneg_left _ hd0
  rw [sum_map_swap]
  have hinner : ∀ e ∈ corpus, (corpus.map fun e1 =>
      if e1.1 ∈ e.2 then |u e.1 - v e.1| / (e.2.length : ℚ) else 0).sum ≤
      |u e.1 - v e.1| := by
    intro e he
    have hmm : (corpus.map fun e1 =>
        if e1.1 ∈ e.2 then |u e.1 - v e.1| / (e.2.length : ℚ) else 0) =
        (keys corpus).map fun p =>
          if p ∈ e.2 then |u e.1 - v e.1| / (e.2.length : ℚ) else 0 := by
      unfold keys
      rw [List.map_map]
      rfl
    rw [hmm, count_mem_keys (keys corpus) hk e.2 _ (hinv e he).1 (hinv e he).2]
    by_cases hzero : e.2.length = 0
    · rw [hzero]
      simpa using abs_nonneg (u e.1 - v e.1)
    · have hne : ((e.2.length : ℚ)) ≠ 0 := by exact_mod_cast hzero
      exact le_of_eq (by rw [mul_comm, div_mul_cancel₀ _ hne])
  exact List.sum_le_sum hinner

/-- Successive round differences decay geometrically with factor d. -/
theorem roundDiff_decay (corpus : Corpus) (d : ℚ)
    (hk : (keys corpus).Nodup)
    (hinv : ∀ e ∈ corpus, e.2.Nodup ∧ ∀ l ∈ e.2, l ∈ keys corpus)
    (hd0 : 0 ≤ d) :
    ∀ t, roundDiff corpus d ((rankStep corpus d)^[t] (init_ranks corpus)) ≤
      d ^ t * roundDiff corpus d (init_ranks corpus) := by
  intro t
  induction t with
  | zero => simp
  | succ t ih =>
    rw [Function.iterate_succ_apply']
    have hcontr := rankStep_contraction corpus d
      (rankStep corpus d ((rankStep corpus d)^[t] (init_ranks corpus)))
      ((rankStep corpus d)^[t] (init_ranks corpus)) hk hinv hd0
    rw [← roundDiff_eq_l1dist, ← roundDiff_eq_l1dist] at hcontr
    have h2 : d * roundDiff corpus d ((rankStep corpus d)^[t] (init_ranks corpus)) ≤
        d * (d ^ t * roundDiff corpus d (init_ranks corpus)) :=
      mul_le_mul_of_nonneg_left ih hd0
    have h3 : d * (d ^ t * roundDiff corpus d (init_ranks corpus)) =
        d ^ (t + 1) * roundDiff corpus d (init_ranks corpus) := by ring
    linarith

/-- Once some iterate's round difference is within the threshold, the
loop exits with at most that many further rounds of fuel. -/
theorem iterLoop_exits_of_small (corpus : Corpus) (d : ℚ) :
    ∀ (t : ℕ) (r : Page → ℚ),
      roundDiff corpus d ((rankStep corpus d)^[t] r) ≤ 1/1000 →
      (iterLoop corpus d (t + 1) r).isSome := by
  intro t
  induction t with
  | zero =>
    intro r h
    rw [Function.iterate_zero_apply] at h
    simp only [iterLoop]
    rw [if_neg (not_lt.mpr h)]
    rfl
  | succ t ih =>
    intro r h
    by_cases hgt : roundDiff corpus d r > 1/1000
    · have hrec := ih (rankStep corpus d r)
        (by rw [← Function.iterate_succ_apply]; exact h)
      simp only [iterLoop]
      rw [if_pos hgt]
      exact hrec
    · simp only [iterLoop]
      rw [if_neg hgt]
      rfl

/-- C6: for a corpus with at least one page satisfying the graph
invariants (duplicate-free keys and link sets, all link targets keys)
and damping in (0, 1), the iteration loop of iterate_pagerank exits
after finitely many rounds with cumulative change at most 0.001: some
finite fuel makes the unbounded while-loop return, with no iteration
cap needed. -/
theorem iterate_pagerank_terminates (corpus : Corpus) (d : ℚ)
    (hN : 1 ≤ corpus.length) (hk : (keys corpus).Nodup)
    (hinv : ∀ e ∈ corpus, e.2.Nodup ∧ ∀ l ∈ e.2, l ∈ keys corpus)
    (hd0 : 0 < d) (hd1 : d < 1) :
    ∃ fuel, (iterate_pagerank corpus d fuel).isSome := by
  have hBnn : 0 ≤ roundDiff corpus d (init_ranks corpus) := by
    apply List.sum_nonneg
    intro x hx
    obtain ⟨e, _, rfl⟩ := List.mem_map.mp hx
    exact abs_nonneg _
  set B := roundDiff corpus d (init_ranks corpus) with hB
  have heps : (0:ℚ) < (1/1000) / (B + 1) := by positivity
  obtain ⟨t, ht⟩ := exists_pow_lt_of_lt_one heps hd1
  have hsmall : roundDiff corpus d
      ((rankStep corpus d)^[t] (init_ranks corpus)) ≤ 1/1000 := by
    refine le_trans (roundDiff_decay corpus d hk hinv (le_of_lt hd0) t) ?_
    have h1 : d ^ t * B ≤ d ^ t * (B + 1) :=
      mul_le_mul_of_nonneg_left (by linarith) (pow_nonneg (le_of_lt hd0) t)
    have h2 : d ^ t * (B + 1) < ((1/1000) / (B + 1)) * (B + 1) :=
      mul_lt_mul_of_pos_right ht (by linarith)
    rw [div_mul_cancel₀ _ (by linarith : B + 1 ≠ 0)] at h2
    linarith
  refine ⟨t + 1, ?_⟩
  unfold iterate_pagerank
  rw [Option.isSome_map']
  exact iterLoop_exits_of_small corpus d t (init_ranks corpus) hsmall

/-- Witness for C6: the 3-cycle with damping 0.85 satisfies all the
hypotheses, so some fuel makes iterate_pagerank return. -/
theorem iterate_pagerank_terminates_witness :
    ∃ fuel, (iterate_pagerank cycCorpus (85/100) fuel).isSome := by
  apply iterate_pagerank_terminates cycCorpus (85/100) (by decide) (by decide)
    (by decide) (by norm_num) (by norm_num)

/-- Every iterate of the update map starting from the uniform table is
nonnegative (for damping in [0, 1]). -/
theorem iterates_nonneg (corpus : Corpus) (d : ℚ) (hd0 : 0 ≤ d)
    (hd1 : d ≤ 1) :
    ∀ t p, 0 ≤ (rankStep corpus d)^[t] (init_ranks corpus) p := by
  intro t
  induction t with
  | zero =>
    intro p
    rw [Function.iterate_zero_apply]
    unfold init_ranks
    positivity
  | succ t ih =>
    intro p
    rw [Function.iterate_succ_apply']
    show 0 ≤ (1 - d) / (corpus.length : ℚ) + d * (corpus.map fun e =>
      if p ∈ e.2 then
        ((rankStep corpus d)^[t] (init_ranks corpus)) e.1 / (e.2.length : ℚ)
      else 0).sum
    have hsumnn : 0 ≤ (corpus.map fun e =>
        if p ∈ e.2 then
          ((rankStep corpus d)^[t] (init_ranks corpus)) e.1 / (e.2.length : ℚ)
        else 0).sum := by
      apply List.sum_nonneg
      intro x hx
      obtain ⟨e, _, rfl⟩ := List.mem_map.mp hx
      by_cases hmem : p ∈ e.2
      · rw [if_pos hmem]
        exact div_nonneg (ih e.1) (by positivity)
      · rw [if_neg hmem]
    have hbase : 0 ≤ (1 - d) / (corpus.length : ℚ) :=
      div_nonneg (by linarith) (by positivity)
    have := mul_nonneg hd0 hsumnn
    linarith

/-- On a nonempty corpus with damping in [0, 1), every iterate is
strictly positive everywhere. -/
theorem iterates_pos (corpus : Corpus) (d : ℚ) (hN : 1 ≤ corpus.length)
    (hd0 : 0 ≤ d) (hd1 : d < 1) :
    ∀ t p, 0 < (rankStep corpus d)^[t] (init_ranks corpus) p := by
  have hNpos : (0:ℚ) < (corpus.length : ℚ) := by exact_mod_cast hN
  intro t p
  cases t with
  | zero =>
    rw [Function.iterate_zero_apply]
    unfold init_ranks
    positivity
  | succ t =>
    rw [Function.iterate_succ_apply']
    show 0 < (1 - d) / (corpus.length : ℚ) + d * (corpus.map fun e =>
      if p ∈ e.2 then
        ((rankStep corpus d)^[t] (init_ranks corpus)) e.1 / (e.2.length : ℚ)
      else 0).sum
    have hsumnn : 0 ≤ (corpus.map fun e =>
        if p ∈ e.2 then
          ((rankStep corpus d)^[t] (init_ranks corpus)) e.1 / (e.2.length : ℚ)
        else 0).sum := by
      apply List.sum_nonneg
      intro x hx
      obtain ⟨e, _, rfl⟩ := List.mem_map.mp hx
      by_cases hmem : p ∈ e.2
      · rw [if_pos hmem]
        exact div_nonneg (iterates_nonneg corpus d hd0 (le_of_lt hd1) t e.1)
          (by positivity)
      · rw [if_neg hmem]
    have hbase : 0 < (1 - d) / (corpus.length : ℚ) :=
      div_pos (by linarith) hNpos
    have := mul_nonneg hd0 hsumnn
    linarith

/-- C5: whenever iterate_pagerank returns, the returned table has
exactly one entry per corpus key, every value lies in [0, 1], and after
the final normalization the values sum to exactly 1 in rational
arithmetic. -/
theorem iterate_pagerank_normalized (corpus : Corpus) (d : ℚ) (fuel : ℕ)
    (out : List (Page × ℚ)) (hN : 1 ≤ corpus.length)
    (hd0 : 0 < d) (hd1 : d < 1)
    (h : iterate_pagerank corpus d fuel = some out) :
    out.map Prod.fst = keys corpus ∧
    (∀ e ∈ out, 0 ≤ e.2 ∧ e.2 ≤ 1) ∧
    (out.map Prod.snd).sum = 1 := by
  unfold iterate_pagerank at h
  rw [Option.map_eq_some'] at h
  obtain ⟨r, hr, hout⟩ := h
  obtain ⟨t, _, _, _, hrt⟩ :=
    iterLoop_characterize corpus d fuel (init_ranks corpus) r hr
  have hpos : ∀ p, 0 < r p := by
    intro p
    rw [hrt]
    exact iterates_pos corpus d hN (le_of_lt hd0) hd1 t p
  have hnn : ∀ x ∈ corpus.map fun e2 => r e2.1, 0 ≤ x := by
    intro x hx
    obtain ⟨e, _, rfl⟩ := List.mem_map.mp hx
    exact le_of_lt (hpos e.1)
  have hne : corpus ≠ [] := by
    intro hc
    rw [hc] at hN
    simp at hN
  obtain ⟨e0, he0⟩ := List.exists_mem_of_ne_nil corpus hne
  have htot : 0 < (corpus.map fun e2 => r e2.1).sum :=
    lt_of_lt_of_le (hpos e0.1)
      (List.single_le_sum hnn _ (List.mem_map.mpr ⟨e0, he0, rfl⟩))
  refine ⟨?_, ?_, ?_⟩
  · rw [← hout]
    unfold normalizeRanks keys
    simp [List.map_map, Function.comp]
  · intro e he
    rw [← hout] at he
    unfold normalizeRanks at he
    obtain ⟨e1, he1, rfl⟩ := List.mem_map.mp he
    constructor
    · exact le_of_lt (div_pos (hpos e1.1) htot)
    · rw [div_le_one htot]
      exact List.single_le_sum hnn _ (List.mem_map.mpr ⟨e1, he1, rfl⟩)
  · rw [← hout]
    unfold normalizeRanks
    have hmap : (corpus.map fun e =>
        (e.1, r e.1 / (corpus.map fun e2 => r e2.1).sum)).map Prod.snd =
        corpus.map fun e => r e.1 / (corpus.map fun e2 => r e2.1).sum := by
      simp [List.map_map, Function.comp]
    rw [hmap, sum_map_div]
    exact div_self (ne_of_gt htot)

/-- Witness for C5: the 3-cycle with damping 0.85 and fuel 1 returns
the uniform table. -/
theorem iterate_pagerank_normalized_witness :
    [("A", (1:ℚ)/3), ("B", 1/3), ("C", 1/3)].map Prod.fst = keys cycCorpus ∧
    (∀ e ∈ [("A", (1:ℚ)/3), ("B", 1/3), ("C", 1/3)], 0 ≤ e.2 ∧ e.2 ≤ 1) ∧
    ([("A", (1:ℚ)/3), ("B", 1/3), ("C", 1/3)].map Prod.snd).sum = 1 := by
  apply iterate_pagerank_normalized cycCorpus (85/100) 1 _ (by decide)
    (by norm_num) (by norm_num)
  have h0 : roundDiff cycCorpus (85/100) (init_ranks cycCorpus) = 0 := by
    simp [roundDiff, new_rank, init_ranks, cycCorpus] <;> norm_num
  have h1 : iterLoop cycCorpus (85/100) 1 (init_ranks cycCorpus) =
      some (init_ranks cycCorpus) := by
    rw [show iterLoop cycCorpus (85/100) 1 (init_ranks cycCorpus) =
        if roundDiff cycCorpus (85/100) (init_ranks cycCorpus) > 1/1000 then
          iterLoop cycCorpus (85/100) 0
            (rankStep cycCorpus (85/100) (init_ranks cycCorpus))
        else some (init_ranks cycCorpus) from rfl, h0]
    norm_num
  unfold iterate_pagerank
  rw [h1]
  simp only [Option.map_some']
  norm_num [normalizeRanks, init_ranks, cycCorpus]

/-- Counterexample to C7: on the empty corpus iterate_pagerank does not
fail at all, let alone fail fast with a descriptive error: the loop body
ranges over no pages, the very first round has difference 0, and the
function returns the empty table successfully (no division is ever
evaluated, matching the Python dict comprehensions over an empty dict). -/
theorem iterate_pagerank_empty_corpus_cex :
    iterate_pagerank [] (85/100) 1 = some [] := by
  have h0 : roundDiff [] (85/100) (init_ranks []) = 0 := rfl
  have h1 : iterLoop [] (85/100) 1 (init_ranks []) = some (init_ranks []) := by
    rw [show iterLoop [] (85/100) 1 (init_ranks []) =
        if roundDiff [] (85/100) (init_ranks []) > 1/1000 then
          iterLoop [] (85/100) 0 (rankStep [] (85/100) (init_ranks []))
        else some (init_ranks []) from rfl, h0]
    norm_num
  unfold iterate_pagerank
  rw [h1]
  rfl

/-- C7 (amended): on the empty corpus, iterate_pagerank returns the
empty table successfully (its comprehensions never evaluate 1/N or the
normalizing division), while sample_pagerank fails at the initial
random.choice start-page draw from an empty sequence — a low-level
error, not a descriptive contract check at the estimator's entry. -/
theorem empty_corpus_behavior :
    (∀ (d : ℚ) (fuel : ℕ), 1 ≤ fuel → iterate_pagerank [] d fuel = some []) ∧
    (∀ (d : ℚ) (n : ℤ) (start : Page) (picks : ℕ → List (Page × ℚ) → Page),
      sample_pagerank [] d n start picks = none) := by
  constructor
  · intro d fuel hfuel
    obtain ⟨f, rfl⟩ : ∃ f, fuel = f + 1 := ⟨fuel - 1, by omega⟩
    have h0 : roundDiff [] d (init_ranks []) = 0 := rfl
    have h1 : iterLoop [] d (f + 1) (init_ranks []) = some (init_ranks []) := by
      simp only [iterLoop]
      rw [h0]
      norm_num
    unfold iterate_pagerank
    rw [h1]
    rfl
  · intro d n start picks
    rfl

/-- Witness for the amended C7 at concrete inputs. -/
theorem empty_corpus_behavior_witness :
    iterate_pagerank [] (1/2) 2 = some [] ∧
    sample_pagerank [] (1/2) 5 "A" (fun _ _ => "A") = none :=
  ⟨empty_corpus_behavior.1 (1/2) 2 (by omega),
   empty_corpus_behavior.2 (1/2) 5 "A" (fun _ _ => "A")⟩

/-- Counterexample to C8: with budget n = -5 < 1 sample_pagerank reports
nothing at all: it draws the start sample, runs zero loop iterations,
and returns a table whose value is the start page's single visit divided
by the negative budget — an out-of-range negative rank, with no contract
violation raised before (or after) the loop. -/
theorem sample_pagerank_negative_budget_cex :
    sample_pagerank [("A", [])] (85/100) (-5) "A" (fun _ _ => "A") =
      some [("A", -(1/5 : ℚ))] ∧ ¬ ((0:ℚ) ≤ -(1/5 : ℚ)) := by
  constructor
  · unfold sample_pagerank
    norm_num
    simp [sampleStep]
    norm_num
  · norm_num

/-- C8 (amended): sample_pagerank performs no n < 1 check.  For any
n < 1 on a nonempty corpus the start page is still sampled (counted
once) and zero weighted draws occur; then for n = 0 the function fails
only after the loop, at the division of the counts by n, while for
negative n it does not fail at all and returns counts/n with
out-of-range values. -/
theorem sample_pagerank_small_budget (corpus : Corpus) (d : ℚ) (n : ℤ)
    (start : Page) (picks : ℕ → List (Page × ℚ) → Page)
    (hne : corpus ≠ []) (hn : n < 1) :
    (n = 0 → sample_pagerank corpus d n start picks = none) ∧
    (n ≠ 0 → sample_pagerank corpus d n start picks =
      some (corpus.map fun e =>
        (e.1, ((if e.1 = start then 1 else 0 : ℕ) : ℚ) / (n : ℚ)))) := by
  have hempty : corpus.isEmpty = false := by
    cases corpus with
    | nil => exact absurd rfl hne
    | cons e t => rfl
  constructor
  · intro h0
    unfold sample_pagerank
    rw [hempty, h0]
    simp
  · intro h0
    have htn : (n - 1).toNat = 0 := by omega
    unfold sample_pagerank
    rw [hempty, htn]
    simp only [Bool.false_eq_true, if_false, if_neg h0]
    rfl

/-- Witness for the amended C8 at budget 0 on a one-page corpus. -/
theorem sample_pagerank_small_budget_witness :
    (((0:ℤ) = 0) →
      sample_pagerank [("A", [])] (85/100) 0 "A" (fun _ _ => "A") = none) ∧
    (((0:ℤ) ≠ 0) →
      sample_pagerank [("A", [])] (85/100) 0 "A" (fun _ _ => "A") =
        some (([("A", [])] : Corpus).map fun e =>
          (e.1, ((if e.1 = "A" then 1 else 0 : ℕ) : ℚ) / ((0:ℤ) : ℚ)))) :=
  sample_pagerank_small_budget [("A", [])] (85/100) 0 "A" (fun _ _ => "A")
    (by simp) (by omega)
